import Mathlib

/-!
Shallow embedding of `src/natcap/invest/scenic_quality/scenic_quality.py`
(InVEST Scenic Quality model).  Raster pixel values are modelled as
rationals; numpy's elementwise operations are modelled per pixel.  The
external transcendental routines `numpy.log` and `numpy.exp` are passed in
as abstract functions, since the claims under study do not depend on their
values, only on where they are (not) applied.
-/

namespace ScenicQuality

/-- `_VALUATION_NODATA = -99999` (module-level constant). -/
def VALUATION_NODATA : ℚ := -99999

/-- `_BYTE_NODATA = 255` (module-level constant). -/
def BYTE_NODATA : ℕ := 255

/-- The three valuation methods dispatched on in `_calculate_valuation`. -/
inductive ValuationMethod
  | linear
  | logarithmic
  | exponential
deriving DecidableEq

/-- Per-pixel form of the `_valuation` closures defined in
`_calculate_valuation`.  Each closure initialises the output to 0 and
assigns the formula on its `valid_pixels` mask:
linear: `visibility > 0`; logarithmic: `visibility > 0 and distance > 0`;
exponential: `visibility > 0`.  `ln` and `exp` stand for `numpy.log` and
`numpy.exp`. -/
def valuationFormula (method : ValuationMethod) (ln ex : ℚ → ℚ)
    (a b weight : ℚ) (distance visibility : ℚ) : ℚ :=
  match method with
  | .linear =>
      if visibility > 0 then (a + b * distance) * (weight * visibility) else 0
  | .logarithmic =>
      if visibility > 0 ∧ distance > 0 then
        (a + b * ln distance) * (weight * visibility)
      else 0
  | .exponential =>
      if visibility > 0 then (a * ex (-b * distance)) * (weight * visibility)
      else 0

/-- Per-pixel form of the block loop in `_calculate_valuation`:
`visibility_value` is initialised to `_VALUATION_NODATA`; pixels with
`dist_in_m <= max_valuation_radius` and not over the visibility raster's
nodata get `_valuation(...)`; pixels beyond the radius and not over nodata
get 0; nodata pixels keep the sentinel. -/
def calculateValuationPixel (method : ValuationMethod) (ln ex : ℚ → ℚ)
    (a b weight : ℚ) (visNodata maxValuationRadius : ℚ)
    (distInM visValue : ℚ) : ℚ :=
  if visValue = visNodata then VALUATION_NODATA
  else if distInM ≤ maxValuationRadius then
    valuationFormula method ln ex a b weight distInM visValue
  else 0

/-- Per-pixel form of `_sum_rasters` inside `_sum_valuation_rasters`:
`raster_sum` starts at `_VALUATION_NODATA`, valid DEM pixels are reset to
0, and each valuation raster adds its value wherever it is not
`_VALUATION_NODATA` (and the DEM is valid).  `vals` lists this pixel's
value in each per-viewpoint valuation raster, in raster order. -/
def sumValuationRastersPixel (demNodata : ℚ) (dem : ℚ) (vals : List ℚ) : ℚ :=
  if dem = demNodata then VALUATION_NODATA
  else vals.foldl (fun acc v => if v ≠ VALUATION_NODATA then acc + v else acc) 0

/-- Per-pixel form of the block loop in `_count_visible_structures`:
`visibility_sum` starts at 0, DEM-nodata pixels are set to the target
nodata `-1`, and each `(visibility, weight)` pair adds
`visibility * weight` wherever the visibility raster holds exactly 1 and
the DEM is valid. -/
def countVisibleStructuresPixel (demNodata : ℚ) (dem : ℚ)
    (visWeights : List (ℚ × ℚ)) : ℚ :=
  if dem = demNodata then -1
  else visWeights.foldl
    (fun acc vw => if vw.1 = 1 then acc + vw.1 * vw.2 else acc) 0

/-- `numpy.digitize(x, bins)` with the default `right=False` on a
monotonically increasing `bins`: the index of the first bin edge strictly
greater than `x` (numpy documents this as `searchsorted(bins, x, 'right')`
for increasing bins). -/
def digitizeAscending : List ℚ → ℚ → ℕ
  | [], _ => 0
  | b :: bs, x => if x < b then 0 else digitizeAscending bs x + 1

/-- Per-pixel form of `_map_percentiles` inside `_calculate_visual_quality`:
output starts at `_BYTE_NODATA`; pixels that are zero but not nodata get 0;
pixels that are neither nodata nor zero get
`numpy.digitize(value, percentile_bins)`. -/
def mapPercentilesPixel (rasterNodata : ℚ) (percentileBins : List ℚ)
    (v : ℚ) : ℕ :=
  if v = rasterNodata then BYTE_NODATA
  else if v = 0 then 0
  else digitizeAscending percentileBins v

/-!
### Out-of-core percentile computation (`_calculate_visual_quality`, phase 1)

A raster is modelled as the list of pixel-value lists its `iterblocks`
iteration yields.  Per block, the source selects
`block[(block != raster_nodata) & (block != 0)]`, sorts ascending, and
spills the sorted run to a temporary file (skipping empty runs);
`n_elements` accumulates the selected sizes.  `heapq.merge` over the runs
is modelled as repeated extraction of the smallest current head
(`popMin`/`kMerge`); the fuel is the total number of spilled values, which
is exactly the number of elements the merged iterator can yield.
-/

/-- Valid pixels of one block: `block[(block != raster_nodata) & (block != 0)]`. -/
def eligiblePixels (rasterNodata : ℚ) (block : List ℚ) : List ℚ :=
  block.filter (fun v => decide (v ≠ rasterNodata) && decide (v ≠ 0))

/-- The sorted runs spilled to temporary files: one ascending run per
block with a nonempty eligible selection. -/
def tileRuns (rasterNodata : ℚ) (blocks : List (List ℚ)) : List (List ℚ) :=
  ((blocks.map (eligiblePixels rasterNodata)).filter
      (fun l => decide (l ≠ []))).map (List.insertionSort (· ≤ ·))

/-- `n_elements`: total count of eligible pixels across all spilled runs. -/
def nElements (rasterNodata : ℚ) (blocks : List (List ℚ)) : ℕ :=
  ((tileRuns rasterNodata blocks).map List.length).sum

/-- One step of `heapq.merge`: remove and return the smallest current head
among the runs (ties resolved in favour of the earliest run, as in a
stable heap merge); exhausted runs are dropped. -/
def popMin : List (List ℚ) → Option (ℚ × List (List ℚ))
  | [] => none
  | [] :: rest => popMin rest
  | (x :: xs) :: rest =>
    match popMin rest with
    | none => some (x, xs :: rest)
    | some (y, rest') =>
      if x ≤ y then some (x, xs :: rest) else some (y, (x :: xs) :: rest')

/-- Fuelled k-way merge: repeatedly emit the smallest current head. -/
def kMerge : ℕ → List (List ℚ) → List ℚ
  | 0, _ => []
  | fuel + 1, runs =>
    match popMin runs with
    | none => []
    | some (x, runs') => x :: kMerge fuel runs'

/-- `heapq.merge(*iterators)`: merge the sorted runs into one ascending
sequence.  The fuel equals the total number of values, so the merge runs
to exhaustion. -/
def mergeAll (runs : List (List ℚ)) : List ℚ :=
  kMerge ((runs.map List.length).sum) runs

/-- `rank_ordinals = deque([math.ceil(n * n_elements) for n in
(0.0, 0.25, 0.50, 0.75)])`. -/
def rankOrdinals (n_elements : ℕ) : List ℕ :=
  [(0 : ℚ), 1/4, 1/2, 3/4].map (fun q => (⌈q * (n_elements : ℚ)⌉).toNat)

/-- The `for value in heapq.merge(...)` loop with `next_percentile_ordinal`
already popped: record the current value whenever `current_index` equals
the pending ordinal, then pop the next ordinal, breaking when the deque is
exhausted. -/
def collectLoop (values : List ℚ) (nextOrd : ℕ) (rest : List ℕ)
    (currentIndex : ℕ) : List ℚ :=
  match values with
  | [] => []
  | v :: vs =>
    if currentIndex = nextOrd then
      v :: (match rest with
            | [] => []
            | o :: os => collectLoop vs o os (currentIndex + 1))
    else collectLoop vs nextOrd rest (currentIndex + 1)

/-- The percentile-collection loop including the initial `popleft`. -/
def collectPercentiles (values : List ℚ) (ordinals : List ℕ) : List ℚ :=
  match ordinals with
  | [] => []
  | o :: os => collectLoop values o os 0

/-- The breakpoints computed by phase 1 of `_calculate_visual_quality`:
spill sorted per-tile runs, merge them, and walk the merged sequence
recording values at the target rank ordinals. -/
def tiledBreakpoints (rasterNodata : ℚ) (blocks : List (List ℚ)) : List ℚ :=
  collectPercentiles (mergeAll (tileRuns rasterNodata blocks))
    (rankOrdinals (nElements rasterNodata blocks))

/-- The full eligible population, in block order. -/
def eligiblePopulation (rasterNodata : ℚ) (blocks : List (List ℚ)) : List ℚ :=
  (blocks.map (eligiblePixels rasterNodata)).flatten

/-- Modelled from the spec: breakpoints obtained by "sorting the entire
eligible population in memory and picking the values at those same rank
positions" (rank positions `ceil(q * N)` for q in {0, 0.25, 0.50, 0.75};
an out-of-range rank position yields no value). -/
def inMemoryBreakpoints (rasterNodata : ℚ) (blocks : List (List ℚ)) : List ℚ :=
  (rankOrdinals (eligiblePopulation rasterNodata blocks).length).filterMap
    (fun r => (List.insertionSort (· ≤ ·)
        (eligiblePopulation rasterNodata blocks))[r]?)

/-!
### Exit paths and temporary directories

`_clip_and_mask_dem` and `_calculate_visual_quality` both create a
temporary directory with `tempfile.mkdtemp` and call `shutil.rmtree` on it
later in the straight-line body, with the `rmtree` wrapped in
`try/except OSError` (a removal failure is logged, not raised).  Neither
function wraps its body in `try/finally`.  The models below follow the
statement order of each body; each Boolean parameter says whether the
corresponding group of statements raises.  The result is the function's
outcome paired with whether the temporary directory still exists on exit.
-/

/-- Exit-path model of `_clip_and_mask_dem`: `mkdtemp`; then
`warp_raster`/`new_raster_from_base`/`rasterize`/`raster_calculator`
(`bodyRaises`); then `try: shutil.rmtree(temp_dir) except OSError: log`
(`rmtreeRaises`). -/
def clipAndMaskDemRun (bodyRaises rmtreeRaises : Bool) :
    Except Unit Unit × Bool :=
  if bodyRaises then (Except.error (), true)
  else (Except.ok (), rmtreeRaises)

/-- Exit-path model of `_calculate_visual_quality`: `mkdtemp`; phase-1
spill loop (`phase1Raises`); merge loop (`mergeRaises`); `try: rmtree
except OSError: log` (`rmtreeRaises`); phase-2 `raster_calculator`
classification (`phase2Raises`). -/
def calculateVisualQualityRun
    (phase1Raises mergeRaises rmtreeRaises phase2Raises : Bool) :
    Except Unit Unit × Bool :=
  if phase1Raises then (Except.error (), true)
  else if mergeRaises then (Except.error (), true)
  else if phase2Raises then (Except.error (), rmtreeRaises)
  else (Except.ok (), rmtreeRaises)

/-!
### `execute`: valuation-method dispatch and task creation order

`execute` resolves `args['valuation_function']` with
`str.startswith` checks (raising `ValueError` otherwise) before the
`TaskGraph` is constructed and before any `add_task` call.  Strings are
modelled as character lists; the observable effects of `execute` are
modelled as an event trace.  Per-viewpoint task names elide the numeric
`feature_index` suffix, which does not matter for the claims here.
-/

/-- The `if/elif/else` dispatch on `args['valuation_function']` in
`execute` (lines 87-102). -/
def parseValuationMethod (vf : List Char) : Option ValuationMethod :=
  if "linear".toList.isPrefixOf vf then some ValuationMethod.linear
  else if "logarithmic".toList.isPrefixOf vf then
    some ValuationMethod.logarithmic
  else if "exponential".toList.isPrefixOf vf then
    some ValuationMethod.exponential
  else none

/-- Externally observable events of `execute`, in order. -/
inductive ExecEvent
  | valueError (msg : List Char)
  | taskGraphCreated
  | taskAdded (name : List Char)
deriving DecidableEq

/-- Event-trace model of `execute`: the valuation-method dispatch happens
first; only when it succeeds are the `TaskGraph` constructed and the
tasks added (fixed preprocessing tasks, two tasks per viewpoint, and the
three aggregation/classification tasks). -/
def executeTrace (vf : List Char) (nViewpoints : ℕ) : List ExecEvent :=
  match parseValuationMethod vf with
  | none =>
      [ExecEvent.valueError
        ("Valuation function type ".toList ++ vf ++ " not recognized".toList)]
  | some _ =>
      ExecEvent.taskGraphCreated ::
      ([ExecEvent.taskAdded "reproject_aoi_to_dem".toList,
        ExecEvent.taskAdded "reproject_structures_to_dem".toList,
        ExecEvent.taskAdded "clip_reprojected_structures_to_aoi".toList,
        ExecEvent.taskAdded "clip_dem_to_aoi".toList]
        ++ (List.range nViewpoints).flatMap
            (fun _ => [ExecEvent.taskAdded "calculate_visibility".toList,
                       ExecEvent.taskAdded
                         "calculate_valuation_for_viewshed".toList])
        ++ [ExecEvent.taskAdded "add_up_valuation_rasters".toList,
            ExecEvent.taskAdded "sum_visibility_for_all_structures".toList,
            ExecEvent.taskAdded "calculate_visual_quality".toList])

/-!
### `_viewpoint_over_nodata`
-/

/-- Python `int()` applied to a rational: truncation toward zero. -/
def truncToInt (q : ℚ) : ℤ :=
  if 0 ≤ q then ⌊q⌋ else ⌈q⌉

/-- The DEM raster as read by `_viewpoint_over_nodata`: an optional nodata
value (`band.GetNoDataValue()` may return `None`), the geotransform
entries used (`gt[0]`, `gt[1]`, `gt[3]`, `gt[5]`), and the band contents
as a function of pixel indices. -/
structure DemRaster where
  nodata : Option ℚ
  originX : ℚ
  pixelWidth : ℚ
  originY : ℚ
  pixelHeight : ℚ
  value : ℤ → ℤ → ℚ

/-- `_viewpoint_over_nodata`: returns `False` immediately when the DEM has
no nodata value; otherwise reads the pixel under the viewpoint and
compares it with the nodata value. -/
def viewpointOverNodata (dem : DemRaster) (vx vy : ℚ) : Bool :=
  match dem.nodata with
  | none => false
  | some nd =>
      let ix := truncToInt ((vx - dem.originX) / dem.pixelWidth)
      let iy := truncToInt ((vy - dem.originY) / dem.pixelHeight)
      decide (dem.value ix iy = nd)

/-!
## Theorems
-/

/-- C1: in `_calculate_valuation`, for every pixel and all three valuation
methods: a pixel over the visibility raster's nodata value yields the
valuation nodata sentinel; a non-nodata pixel whose ground distance
exceeds `max_valuation_radius` yields exactly 0 (not nodata); and a
non-nodata pixel within the radius whose visibility value is 0 yields
exactly 0 regardless of distance. -/
theorem c1_valuation_pixel_masks (method : ValuationMethod) (ln ex : ℚ → ℚ)
    (a b weight visNodata maxR dist vis : ℚ) :
    (vis = visNodata →
      calculateValuationPixel method ln ex a b weight visNodata maxR dist vis
        = VALUATION_NODATA) ∧
    (vis ≠ visNodata → maxR < dist →
      calculateValuationPixel method ln ex a b weight visNodata maxR dist vis
        = 0) ∧
    (vis ≠ visNodata → dist ≤ maxR → vis = 0 →
      calculateValuationPixel method ln ex a b weight visNodata maxR dist vis
        = 0) := by
  refine ⟨fun h => by simp [calculateValuationPixel, h],
          fun h hr => by simp [calculateValuationPixel, h, not_le.mpr hr],
          fun h hr hv => ?_⟩
  subst hv
  cases method <;>
    simp [calculateValuationPixel, valuationFormula, h, hr]

/-- Witness for C1: the three mask branches evaluated at concrete pixels
(nodata pixel; visible pixel beyond the radius; in-radius pixel with
visibility 0). -/
theorem c1_valuation_pixel_masks_witness :
    calculateValuationPixel ValuationMethod.linear id id 1 1 1 255 1000 5 255
      = VALUATION_NODATA ∧
    calculateValuationPixel ValuationMethod.logarithmic id id 1 1 1 255 1000
      2000 1 = 0 ∧
    calculateValuationPixel ValuationMethod.exponential id id 1 1 1 255 1000
      5 0 = 0 :=
  ⟨(c1_valuation_pixel_masks ValuationMethod.linear id id 1 1 1 255 1000 5
      255).1 rfl,
   (c1_valuation_pixel_masks ValuationMethod.logarithmic id id 1 1 1 255 1000
      2000 1).2.1 (by decide) (by decide),
   (c1_valuation_pixel_masks ValuationMethod.exponential id id 1 1 1 255 1000
      5 0).2.2 (by decide) (by decide) rfl⟩

/-- C2: with the logarithmic method, a visible pixel within the maximum
valuation radius gets `(a + b·ln(distance)) · weight · visibility` when its
distance is positive, and exactly 0 when its distance is 0 (the
`distance > 0` mask excludes `log(0)`). -/
theorem c2_logarithmic_pixel (ln ex : ℚ → ℚ)
    (a b weight visNodata maxR dist vis : ℚ)
    (hnd : vis ≠ visNodata) (hvis : 0 < vis) (hdist : dist ≤ maxR) :
    (0 < dist →
      calculateValuationPixel ValuationMethod.logarithmic ln ex a b weight
          visNodata maxR dist vis
        = (a + b * ln dist) * (weight * vis)) ∧
    (dist = 0 →
      calculateValuationPixel ValuationMethod.logarithmic ln ex a b weight
          visNodata maxR dist vis = 0) := by
  constructor <;> intro h <;>
    simp [calculateValuationPixel, valuationFormula, hnd, hdist, hvis, h]

/-- Witness for C2: logarithmic valuation with `ln` modelled as the
constant function 10, `a = 1`, `b = 2`, `weight = 3`: at distance 4 the
pixel gets `(1 + 2·10)·(3·1) = 63`; at distance 0 it gets 0. -/
theorem c2_logarithmic_pixel_witness :
    calculateValuationPixel ValuationMethod.logarithmic (fun _ => 10) id
      1 2 3 255 1000 4 1 = 63 ∧
    calculateValuationPixel ValuationMethod.logarithmic (fun _ => 10) id
      1 2 3 255 1000 0 1 = 0 := by
  have h4 := c2_logarithmic_pixel (fun _ => 10) id 1 2 3 255 1000 4 1
    (by decide) (by decide) (by decide)
  have h0 := c2_logarithmic_pixel (fun _ => 10) id 1 2 3 255 1000 0 1
    (by decide) (by decide) (by decide)
  refine ⟨?_, h0.2 rfl⟩
  rw [h4.1 (by decide)]
  norm_num

/-- C7 counterexample: the claim says the temporary directories are
removed on every exit path; but when the phase-1 spill loop of
`_calculate_visual_quality` raises (first parameter `true`), the function
propagates the error with the temporary directory still present, and
likewise for `_clip_and_mask_dem` when its clipping/masking body raises —
neither body is wrapped in `try/finally`, so the `shutil.rmtree` call is
never reached. -/
theorem c7_cleanup_counterexample :
    (calculateVisualQualityRun true false false false).1 = Except.error () ∧
    (calculateVisualQualityRun true false false false).2 = true ∧
    (clipAndMaskDemRun true false).1 = Except.error () ∧
    (clipAndMaskDemRun true false).2 = true :=
  ⟨rfl, rfl, rfl, rfl⟩

/-- C7 amended: the temporary directories are removed on the path where
the body preceding the `shutil.rmtree` call completes without raising and
the removal itself succeeds — for `_calculate_visual_quality` this holds
whether or not the phase-2 classification afterwards raises; if an
exception is raised before the removal call, the directory is not
removed. -/
theorem c7_cleanup_amended (phase2Raises : Bool) :
    (calculateVisualQualityRun false false false phase2Raises).2 = false ∧
    (clipAndMaskDemRun false false).2 = false := by
  cases phase2Raises <;> exact ⟨rfl, rfl⟩

/-- C10: when the DEM raster has no nodata value defined,
`_viewpoint_over_nodata` returns `False` for every viewpoint, so the
over-nodata check never excludes any viewpoint in that case. -/
theorem c10_no_nodata_means_never_over_nodata (dem : DemRaster) (vx vy : ℚ)
    (h : dem.nodata = none) :
    viewpointOverNodata dem vx vy = false := by
  simp [viewpointOverNodata, h]

/-- Witness for C10: a DEM with no nodata value and constant elevation 5;
the viewpoint at (3, 4) is not reported as over nodata. -/
theorem c10_no_nodata_means_never_over_nodata_witness :
    viewpointOverNodata ⟨none, 0, 1, 0, -1, fun _ _ => 5⟩ 3 4 = false :=
  c10_no_nodata_means_never_over_nodata ⟨none, 0, 1, 0, -1, fun _ _ => 5⟩
    3 4 rfl

/-- The accumulation loop of `_count_visible_structures`, started from an
arbitrary accumulator, sums the weights of the pairs whose visibility
value is exactly 1. -/
theorem foldl_visible_weights (l : List (ℚ × ℚ)) (c : ℚ) :
    l.foldl (fun acc vw => if vw.1 = 1 then acc + vw.1 * vw.2 else acc) c
      = c + ((l.filter (fun vw => decide (vw.1 = 1))).map Prod.snd).sum := by
  induction l generalizing c with
  | nil => simp
  | cons hd tl ih =>
    by_cases h : hd.1 = 1
    · simp [h, ih, add_assoc]
    · simp [h, ih]

/-- C5: in `_count_visible_structures`, a DEM-nodata pixel yields the
aggregate's own nodata sentinel `-1` (never 0); a valid DEM pixel yields
the sum of `weight_i` over exactly those viewpoints whose visibility
raster holds 1 there (so per-viewpoint nodata or 0 contributes nothing);
and with zero viewpoints every valid DEM pixel yields 0. -/
theorem c5_count_visible_structures_pixel (demNodata dem : ℚ)
    (visWeights : List (ℚ × ℚ)) :
    (dem = demNodata →
      countVisibleStructuresPixel demNodata dem visWeights = -1 ∧
      countVisibleStructuresPixel demNodata dem visWeights ≠ 0) ∧
    (dem ≠ demNodata →
      countVisibleStructuresPixel demNodata dem visWeights
        = ((visWeights.filter (fun vw => decide (vw.1 = 1))).map
            Prod.snd).sum) ∧
    (dem ≠ demNodata → visWeights = [] →
      countVisibleStructuresPixel demNodata dem visWeights = 0) := by
  refine ⟨fun h => ⟨by simp [countVisibleStructuresPixel, h], ?_⟩,
          fun h => ?_, fun h hnil => ?_⟩
  · simp only [countVisibleStructuresPixel, if_pos h]
    norm_num
  · simp only [countVisibleStructuresPixel, if_neg h]
    simpa using foldl_visible_weights visWeights 0
  · subst hnil
    simp [countVisibleStructuresPixel, h]

/-- Witness for C5: terrain nodata `-1`-branch at a nodata pixel; a valid
pixel seen by viewpoints of weights 1 and 3 (and missed by one of weight
5, whose raster reads 0) sums to 4; a valid pixel with zero viewpoints
sums to 0. -/
theorem c5_count_visible_structures_pixel_witness :
    (countVisibleStructuresPixel 9 9 [(1, 2)] = -1 ∧
      countVisibleStructuresPixel 9 9 [(1, 2)] ≠ 0) ∧
    countVisibleStructuresPixel 9 100 [(1, 1), (0, 5), (1, 3)] = 4 ∧
    countVisibleStructuresPixel 9 100 [] = 0 := by
  refine ⟨(c5_count_visible_structures_pixel 9 9 [(1, 2)]).1 rfl, ?_, ?_⟩
  · rw [(c5_count_visible_structures_pixel 9 100
      [(1, 1), (0, 5), (1, 3)]).2.1 (by decide)]
    norm_num
  · exact (c5_count_visible_structures_pixel 9 100 []).2.2 (by decide) rfl

/-- The accumulation loop of `_sum_rasters` (inside
`_sum_valuation_rasters`), started from an arbitrary accumulator, sums the
values that are not the valuation nodata sentinel. -/
theorem foldl_valid_valuations (l : List ℚ) (c : ℚ) :
    l.foldl (fun acc v => if v ≠ VALUATION_NODATA then acc + v else acc) c
      = c + (l.filter (fun v => decide (v ≠ VALUATION_NODATA))).sum := by
  induction l generalizing c with
  | nil => simp
  | cons hd tl ih =>
    by_cases h : hd = VALUATION_NODATA
    · simpa [h] using ih c
    · simpa [h, add_assoc] using ih (c + hd)

/-- C6: in `_sum_valuation_rasters`, a DEM-nodata pixel yields the
valuation nodata sentinel; a valid DEM pixel yields the sum, over all
per-viewpoint valuation rasters, of the values that are not the sentinel
(a per-viewpoint nodata value contributes nothing but does not stop the
accumulation), starting from 0 — so with zero valuation rasters every
valid DEM pixel yields 0. -/
theorem c6_sum_valuation_rasters_pixel (demNodata dem : ℚ) (vals : List ℚ) :
    (dem = demNodata →
      sumValuationRastersPixel demNodata dem vals = VALUATION_NODATA) ∧
    (dem ≠ demNodata →
      sumValuationRastersPixel demNodata dem vals
        = (vals.filter (fun v => decide (v ≠ VALUATION_NODATA))).sum) ∧
    (dem ≠ demNodata → vals = [] →
      sumValuationRastersPixel demNodata dem vals = 0) := by
  refine ⟨fun h => by simp [sumValuationRastersPixel, h],
          fun h => ?_, fun h hnil => ?_⟩
  · simp only [sumValuationRastersPixel, if_neg h]
    simpa using foldl_valid_valuations vals 0
  · subst hnil
    simp [sumValuationRastersPixel, h]

/-- Witness for C6: a nodata terrain pixel; a valid pixel whose three
per-viewpoint valuations are 2, the sentinel `-99999` and 5, summing to 7
(the sentinel is skipped, not propagated); a valid pixel with zero
valuation rasters. -/
theorem c6_sum_valuation_rasters_pixel_witness :
    sumValuationRastersPixel 9 9 [2] = VALUATION_NODATA ∧
    sumValuationRastersPixel 9 100 [2, -99999, 5] = 7 ∧
    sumValuationRastersPixel 9 100 [] = 0 := by
  refine ⟨(c6_sum_valuation_rasters_pixel 9 9 [2]).1 rfl, ?_,
    (c6_sum_valuation_rasters_pixel 9 100 []).2.2 (by decide) rfl⟩
  rw [(c6_sum_valuation_rasters_pixel 9 100 [2, -99999, 5]).2.1 (by decide)]
  norm_num [VALUATION_NODATA]

/-- On an ascending bin list, `numpy.digitize` returns the number of bin
edges less than or equal to the probed value. -/
theorem digitizeAscending_eq_count_le (bins : List ℚ)
    (hs : bins.Sorted (· ≤ ·)) (x : ℚ) :
    digitizeAscending bins x
      = (bins.filter (fun b => decide (b ≤ x))).length := by
  induction bins with
  | nil => rfl
  | cons b bs ih =>
    rw [List.sorted_cons] at hs
    rcases lt_or_le x b with h | h
    · have hnone : ∀ c ∈ bs, ¬ (c ≤ x) := fun c hc hcx =>
        absurd (le_trans (hs.1 c hc) hcx) (not_le.mpr h)
      have hfil : bs.filter (fun b => decide (b ≤ x)) = [] := by
        rw [List.filter_eq_nil_iff]
        simpa using hnone
      simp [digitizeAscending, h, not_le.mpr h, hfil]
    · simp [digitizeAscending, not_lt.mpr h, h, ih hs.2]

/-- C4: in the classification step of `_calculate_visual_quality`
(`_map_percentiles`), a nodata pixel maps to the classifier's own sentinel
255; a non-nodata pixel equal to exactly 0 maps to bucket 0; and every
other valid pixel maps to the count of breakpoints less than or equal to
its value (right-open binning against the ascending breakpoint list). -/
theorem c4_map_percentiles_pixel (rasterNodata : ℚ) (bins : List ℚ)
    (hs : bins.Sorted (· ≤ ·)) (v : ℚ) :
    (v = rasterNodata → mapPercentilesPixel rasterNodata bins v = 255) ∧
    (v ≠ rasterNodata → v = 0 →
      mapPercentilesPixel rasterNodata bins v = 0) ∧
    (v ≠ rasterNodata → v ≠ 0 →
      mapPercentilesPixel rasterNodata bins v
        = (bins.filter (fun b => decide (b ≤ v))).length) := by
  refine ⟨fun h => by simp [mapPercentilesPixel, h, BYTE_NODATA],
          fun h h0 => by subst h0; simp [mapPercentilesPixel, h],
          fun h h0 => ?_⟩
  rw [mapPercentilesPixel, if_neg h, if_neg h0]
  exact digitizeAscending_eq_count_le bins hs v

/-- Witness for C4 with breakpoints `[1, 3]` and source nodata 7: the
nodata pixel maps to 255, the zero pixel to bucket 0, and the pixel with
value 2 to bucket 1 (one breakpoint `≤ 2`). -/
theorem c4_map_percentiles_pixel_witness :
    mapPercentilesPixel 7 [1, 3] 7 = 255 ∧
    mapPercentilesPixel 7 [1, 3] 0 = 0 ∧
    mapPercentilesPixel 7 [1, 3] 2 = 1 := by
  refine ⟨(c4_map_percentiles_pixel 7 [1, 3] (by decide) 7).1 rfl,
    (c4_map_percentiles_pixel 7 [1, 3] (by decide) 0).2.1 (by decide) rfl,
    ?_⟩
  rw [(c4_map_percentiles_pixel 7 [1, 3] (by decide) 2).2.2 (by decide)
    (by decide)]
  decide

/-- C9: when `args['valuation_function']` starts with none of `linear`,
`logarithmic`, `exponential`, `execute` raises `ValueError` before the
`TaskGraph` is constructed and before any task is added: the trace holds
the error alone, with no task-creation and no graph-construction event. -/
theorem c9_unrecognized_valuation_fails_fast (vf : List Char) (n : ℕ)
    (h : ¬ ("linear".toList.isPrefixOf vf
        ∨ "logarithmic".toList.isPrefixOf vf
        ∨ "exponential".toList.isPrefixOf vf)) :
    executeTrace vf n
      = [ExecEvent.valueError
          ("Valuation function type ".toList ++ vf
            ++ " not recognized".toList)] ∧
    (∀ name, ExecEvent.taskAdded name ∉ executeTrace vf n) ∧
    ExecEvent.taskGraphCreated ∉ executeTrace vf n := by
  push_neg at h
  obtain ⟨h1, h2, h3⟩ := h
  have e1 : "linear".toList.isPrefixOf vf = false := Bool.eq_false_iff.mpr h1
  have e2 : "logarithmic".toList.isPrefixOf vf = false :=
    Bool.eq_false_iff.mpr h2
  have e3 : "exponential".toList.isPrefixOf vf = false :=
    Bool.eq_false_iff.mpr h3
  have hp : parseValuationMethod vf = none := by
    unfold parseValuationMethod
    rw [e1, e2, e3]
    simp
  refine ⟨by simp [executeTrace, hp], fun name => ?_, ?_⟩ <;>
    simp [executeTrace, hp]

/-- Witness for C9 at `valuation_function = "quadratic"` with two
viewpoints: the trace is the lone `ValueError` and no task is created. -/
theorem c9_unrecognized_valuation_fails_fast_witness :
    executeTrace "quadratic".toList 2
      = [ExecEvent.valueError
          ("Valuation function type ".toList ++ "quadratic".toList
            ++ " not recognized".toList)] ∧
    (∀ name, ExecEvent.taskAdded name ∉ executeTrace "quadratic".toList 2) ∧
    ExecEvent.taskGraphCreated ∉ executeTrace "quadratic".toList 2 :=
  c9_unrecognized_valuation_fails_fast "quadratic".toList 2 (by decide)

/-- C8 counterexample: bucket assignment is not idempotent in general.
With breakpoints `[10, 20]` and source nodata `-99999`, the non-zero,
non-nodata value 15 gets bucket 1, but reclassifying the bucket value 1
against the same breakpoints gives bucket 0 (no breakpoint is `≤ 1`). -/
theorem c8_idempotence_counterexample :
    mapPercentilesPixel (-99999) [10, 20]
        ((mapPercentilesPixel (-99999) [10, 20] 15 : ℕ) : ℚ)
      ≠ mapPercentilesPixel (-99999) [10, 20] 15 := by
  decide

/-- C8 amended: bucket assignment is idempotent on non-zero, non-nodata
values exactly when the breakpoint list is aligned with the buckets it
produces: whenever every candidate bucket `j ≤ bins.length` differs from
the source nodata value and, for `j ≥ 1`, the number of breakpoints `≤ j`
is `j` itself (as for breakpoints `[1, 2, ..., k]`), reclassifying a
classified value yields the same bucket; for general breakpoint lists it
does not. -/
theorem c8_idempotence_amended (rasterNodata : ℚ) (bins : List ℚ)
    (hs : bins.Sorted (· ≤ ·))
    (hfix : ∀ j ≤ bins.length, ((j : ℚ) ≠ rasterNodata ∧
      (1 ≤ j →
        (bins.filter (fun b => decide (b ≤ (j : ℚ)))).length = j)))
    (v : ℚ) (hvn : v ≠ rasterNodata) (hv0 : v ≠ 0) :
    mapPercentilesPixel rasterNodata bins
        ((mapPercentilesPixel rasterNodata bins v : ℕ) : ℚ)
      = mapPercentilesPixel rasterNodata bins v := by
  have hk : mapPercentilesPixel rasterNodata bins v
      = (bins.filter (fun b => decide (b ≤ v))).length :=
    (c4_map_percentiles_pixel rasterNodata bins hs v).2.2 hvn hv0
  set k := mapPercentilesPixel rasterNodata bins v with hkdef
  have hkle : k ≤ bins.length := by
    rw [hk]
    exact List.length_filter_le _ bins
  rcases Nat.eq_zero_or_pos k with h0 | hpos
  · rw [h0]
    have := (hfix 0 (Nat.zero_le _)).1
    simp only [Nat.cast_zero] at this ⊢
    rw [mapPercentilesPixel, if_neg this, if_pos rfl]
  · have hne0 : ((k : ℚ)) ≠ 0 := by
      exact_mod_cast Nat.pos_iff_ne_zero.mp hpos
    rw [(c4_map_percentiles_pixel rasterNodata bins hs (k : ℚ)).2.2
      (hfix k hkle).1 hne0]
    exact (hfix k hkle).2 hpos

/-- Witness for C8 amended: breakpoints `[1, 2]` with nodata 7 satisfy
the alignment condition, and the value 3 classifies to bucket 2, which
reclassifies to bucket 2 again. -/
theorem c8_idempotence_amended_witness :
    mapPercentilesPixel 7 [1, 2]
        ((mapPercentilesPixel 7 [1, 2] 3 : ℕ) : ℚ)
      = mapPercentilesPixel 7 [1, 2] 3 :=
  c8_idempotence_amended 7 [1, 2] (by decide) (by decide) 3 (by decide)
    (by decide)

/-- When `popMin` finds nothing, every run is exhausted. -/
theorem popMin_eq_none {runs : List (List ℚ)} (h : popMin runs = none) :
    runs.flatten = [] := by
  induction runs with
  | nil => rfl
  | cons head rest ih =>
    cases head with
    | nil =>
      simp only [popMin] at h
      simp [ih h]
    | cons x xs =>
      rcases hrest : popMin rest with _ | ⟨y, rest'⟩ <;>
        simp only [popMin, hrest] at h
      · exact Option.noConfusion h
      · split at h <;> exact Option.noConfusion h

/-- `popMin` removes exactly one element from the combined contents. -/
theorem popMin_perm {runs : List (List ℚ)} {x : ℚ} {runs' : List (List ℚ)}
    (h : popMin runs = some (x, runs')) :
    List.Perm runs.flatten (x :: runs'.flatten) := by
  induction runs generalizing x runs' with
  | nil => simp [popMin] at h
  | cons head rest ih =>
    cases head with
    | nil =>
      simp only [popMin] at h
      simpa using ih h
    | cons y ys =>
      rcases hrest : popMin rest with _ | ⟨z, rest'⟩ <;>
        simp only [popMin, hrest, Option.some.injEq, Prod.mk.injEq] at h
      · obtain ⟨rfl, rfl⟩ := h
        exact List.Perm.refl _
      · split at h
        · obtain ⟨rfl, rfl⟩ := h
          exact List.Perm.refl _
        · obtain ⟨rfl, rfl⟩ := h
          have hp := ih hrest
          simp only [List.flatten_cons]
          exact ((hp.append_left (y :: ys)).trans List.perm_middle)

/-- `popMin` on sorted runs returns sorted runs and an element below
everything left. -/
theorem popMin_sorted_min {runs : List (List ℚ)} {x : ℚ}
    {runs' : List (List ℚ)}
    (hs : ∀ l ∈ runs, l.Sorted (· ≤ ·))
    (h : popMin runs = some (x, runs')) :
    (∀ l ∈ runs', l.Sorted (· ≤ ·)) ∧ ∀ y ∈ runs'.flatten, x ≤ y := by
  induction runs generalizing x runs' with
  | nil => simp [popMin] at h
  | cons head rest ih =>
    cases head with
    | nil =>
      simp only [popMin] at h
      exact ih (fun l hl => hs l (List.mem_cons_of_mem _ hl)) h
    | cons v vs =>
      have hvvs := hs _ (List.mem_cons_self (v :: vs) rest)
      rw [List.sorted_cons] at hvvs
      have hrest_s : ∀ l ∈ rest, l.Sorted (· ≤ ·) :=
        fun l hl => hs l (List.mem_cons_of_mem _ hl)
      rcases hrest : popMin rest with _ | ⟨z, rest'⟩ <;>
        simp only [popMin, hrest, Option.some.injEq, Prod.mk.injEq] at h
      · obtain ⟨rfl, rfl⟩ := h
        have hflat : rest.flatten = [] := popMin_eq_none hrest
        refine ⟨fun l hl => ?_, fun y hy => ?_⟩
        · rcases List.mem_cons.mp hl with rfl | hl
          · exact hvvs.2
          · exact hrest_s l hl
        · rw [List.flatten_cons, hflat, List.append_nil] at hy
          exact hvvs.1 y hy
      · obtain ⟨ih1, ih2⟩ := ih hrest_s hrest
        split at h
        case isTrue hle =>
          obtain ⟨rfl, rfl⟩ := h
          refine ⟨fun l hl => ?_, fun y hy => ?_⟩
          · rcases List.mem_cons.mp hl with rfl | hl
            · exact hvvs.2
            · exact hrest_s l hl
          · rw [List.flatten_cons] at hy
            rcases List.mem_append.mp hy with h1 | h2
            · exact hvvs.1 y h1
            · have hmem := (popMin_perm hrest).mem_iff.mp h2
              rcases List.mem_cons.mp hmem with rfl | hy'
              · exact hle
              · exact le_trans hle (ih2 y hy')
        case isFalse hlt =>
          obtain ⟨rfl, rfl⟩ := h
          have hxv : x ≤ v := le_of_lt (lt_of_not_le hlt)
          refine ⟨fun l hl => ?_, fun y hy => ?_⟩
          · rcases List.mem_cons.mp hl with rfl | hl
            · exact List.sorted_cons.mpr hvvs
            · exact ih1 l hl
          · rw [List.flatten_cons] at hy
            rcases List.mem_append.mp hy with h1 | h2
            · rcases List.mem_cons.mp h1 with rfl | h1'
              · exact hxv
              · exact le_trans hxv (hvvs.1 y h1')
            · exact ih2 y h2

/-- With enough fuel, the k-way merge of sorted runs is the ascending
ordering of all their contents. -/
theorem kMerge_eq_insertionSort (fuel : ℕ) (runs : List (List ℚ))
    (hs : ∀ l ∈ runs, l.Sorted (· ≤ ·))
    (hf : runs.flatten.length ≤ fuel) :
    kMerge fuel runs = List.insertionSort (· ≤ ·) runs.flatten := by
  induction fuel generalizing runs with
  | zero =>
    have hnil : runs.flatten = [] := List.length_eq_zero.mp (Nat.le_zero.mp hf)
    rw [hnil]
    rfl
  | succ fuel ih =>
    rcases hpm : popMin runs with _ | ⟨x, runs'⟩
    · have hnil : runs.flatten = [] := popMin_eq_none hpm
      simp only [kMerge, hpm]
      rw [hnil]
      rfl
    · have hperm := popMin_perm hpm
      obtain ⟨hs', hmin⟩ := popMin_sorted_min hs hpm
      have hlen : runs'.flatten.length ≤ fuel := by
        have := hperm.length_eq
        simp only [List.length_cons] at this
        omega
      simp only [kMerge, hpm]
      rw [ih runs' hs' hlen]
      refine List.eq_of_perm_of_sorted ?_ ?_ (List.sorted_insertionSort _ _)
      · exact (((List.perm_insertionSort _ _).cons x).trans hperm.symm).trans
          (List.perm_insertionSort _ runs.flatten).symm
      · rw [List.sorted_cons]
        refine ⟨fun b hb => hmin b ?_, List.sorted_insertionSort _ _⟩
        exact (List.perm_insertionSort _ _).mem_iff.mp hb

/-- `heapq.merge` over sorted runs equals sorting their combined
contents. -/
theorem mergeAll_eq_insertionSort (runs : List (List ℚ))
    (hs : ∀ l ∈ runs, l.Sorted (· ≤ ·)) :
    mergeAll runs = List.insertionSort (· ≤ ·) runs.flatten := by
  refine kMerge_eq_insertionSort _ runs hs ?_
  rw [List.length_flatten]

/-- Every spilled run is sorted. -/
theorem tileRuns_sorted (nd : ℚ) (blocks : List (List ℚ)) :
    ∀ l ∈ tileRuns nd blocks, l.Sorted (· ≤ ·) := by
  intro l hl
  simp only [tileRuns, List.mem_map] at hl
  obtain ⟨l', _, rfl⟩ := hl
  exact List.sorted_insertionSort _ l'

/-- Dropping empty runs does not change the combined contents. -/
theorem flatten_filter_ne_nil (L : List (List ℚ)) :
    (L.filter (fun l => decide (l ≠ []))).flatten = L.flatten := by
  induction L with
  | nil => rfl
  | cons hd tl ih =>
    by_cases h : hd = []
    · subst h
      simpa using ih
    · simp only [List.filter_cons]
      rw [if_pos (by simpa using h), List.flatten_cons, List.flatten_cons, ih]

/-- Sorting each run permutes the combined contents. -/
theorem flatten_map_insertionSort (L : List (List ℚ)) :
    List.Perm (L.map (List.insertionSort (· ≤ ·))).flatten L.flatten := by
  induction L with
  | nil => exact List.Perm.refl _
  | cons hd tl ih =>
    simp only [List.map_cons, List.flatten_cons]
    exact (List.perm_insertionSort _ hd).append ih

/-- The spilled runs hold exactly the eligible population. -/
theorem tileRuns_flatten_perm (nd : ℚ) (blocks : List (List ℚ)) :
    List.Perm (tileRuns nd blocks).flatten (eligiblePopulation nd blocks) := by
  have h1 := flatten_map_insertionSort
    ((blocks.map (eligiblePixels nd)).filter (fun l => decide (l ≠ [])))
  rw [flatten_filter_ne_nil] at h1
  exact h1

/-- `n_elements` counts the eligible population. -/
theorem nElements_eq_population_length (nd : ℚ) (blocks : List (List ℚ)) :
    nElements nd blocks = (eligiblePopulation nd blocks).length := by
  rw [nElements, ← List.length_flatten]
  exact (tileRuns_flatten_perm nd blocks).length_eq

/-- When the pending ordinals are strictly increasing, start at or above
the running counter, and stay within the remaining values, the collection
loop picks exactly the value at each ordinal. -/
theorem collectLoop_eq_map_getD (values : List ℚ) (nextOrd : ℕ)
    (rest : List ℕ) (cur : ℕ)
    (hsorted : List.Sorted (· < ·) (nextOrd :: rest))
    (hlo : cur ≤ nextOrd)
    (hhi : ∀ o ∈ nextOrd :: rest, o < cur + values.length) :
    collectLoop values nextOrd rest cur
      = (nextOrd :: rest).map (fun o => values.getD (o - cur) 0) := by
  induction values generalizing nextOrd rest cur with
  | nil =>
    have h := hhi nextOrd (List.mem_cons_self _ _)
    simp only [List.length_nil, Nat.add_zero] at h
    omega
  | cons v vs ih =>
    rw [List.sorted_cons] at hsorted
    by_cases hcur : cur = nextOrd
    · subst hcur
      cases rest with
      | nil => simp [collectLoop]
      | cons o os =>
        have ho : cur < o := hsorted.1 o (List.mem_cons_self _ _)
        have hrec := ih o os (cur + 1) hsorted.2 ho
          (fun o' ho' => by
            have := hhi o' (List.mem_cons_of_mem _ ho')
            simpa [Nat.add_assoc, Nat.add_comm 1 vs.length] using this)
        have hstep : collectLoop (v :: vs) cur (o :: os) cur
            = v :: collectLoop vs o os (cur + 1) := by
          simp [collectLoop]
        rw [hstep, hrec]
        conv_rhs => rw [List.map_cons]
        rw [Nat.sub_self, List.getD_cons_zero]
        congr 1
        refine List.map_congr_left fun o' ho' => ?_
        have hgt : cur < o' := hsorted.1 o' ho'
        have hsub : o' - cur = (o' - (cur + 1)) + 1 := by omega
        rw [hsub, List.getD_cons_succ]
    · have hlt : cur < nextOrd := lt_of_le_of_ne hlo hcur
      have hrec := ih nextOrd rest (cur + 1) (List.sorted_cons.mpr hsorted)
        hlt (fun o' ho' => by
          have := hhi o' ho'
          simpa [Nat.add_assoc, Nat.add_comm 1 vs.length] using this)
      simp only [collectLoop, if_neg hcur, hrec]
      refine List.map_congr_left fun o' ho' => ?_
      have ho' : cur < o' := by
        rcases List.mem_cons.mp ho' with rfl | hmem
        · exact hlt
        · exact lt_trans hlt (hsorted.1 o' hmem)
      have : o' - cur = (o' - (cur + 1)) + 1 := by omega
      rw [this, List.getD_cons_succ]

/-- The full collection pass (initial `popleft` included) picks the value
at each ordinal when the ordinals are strictly increasing and in range. -/
theorem collectPercentiles_eq_map_getD (values : List ℚ) (ords : List ℕ)
    (hsorted : List.Sorted (· < ·) ords)
    (hhi : ∀ o ∈ ords, o < values.length) :
    collectPercentiles values ords = ords.map (fun o => values.getD o 0) := by
  cases ords with
  | nil => rfl
  | cons o os =>
    have h := collectLoop_eq_map_getD values o os 0 hsorted (Nat.zero_le _)
      (by simpa using hhi)
    simpa [collectPercentiles] using h

/-- Picking in-range positions with `l[r]?` is picking with `getD`. -/
theorem filterMap_getElem_eq_map_getD (S : List ℚ) (ords : List ℕ)
    (hhi : ∀ o ∈ ords, o < S.length) :
    ords.filterMap (fun r => S[r]?) = ords.map (fun o => S.getD o 0) := by
  induction ords with
  | nil => rfl
  | cons o os ih =>
    have ho : o < S.length := hhi o (List.mem_cons_self _ _)
    rw [List.filterMap_cons, List.getElem?_eq_getElem ho, List.map_cons,
      List.getD_eq_getElem S 0 ho,
      ih (fun o' ho' => hhi o' (List.mem_cons_of_mem _ ho'))]

/-- `math.ceil` of `n / d` over the rationals computed with natural
division. -/
theorem ceil_natCast_div_natCast_toNat (n d : ℕ) (hd : 0 < d) :
    (⌈(n : ℚ) / (d : ℚ)⌉).toNat = (n + d - 1) / d := by
  have hdq : (0 : ℚ) < (d : ℚ) := by exact_mod_cast hd
  set Q := (n + d - 1) / d with hQ
  have hle : Q * d ≤ n + d - 1 := Nat.div_mul_le_self _ _
  have hlt : n + d - 1 < d * (Q + 1) := Nat.lt_mul_div_succ _ hd
  have hexp : d * (Q + 1) = d * Q + d := by ring
  have hcomm : Q * d = d * Q := Nat.mul_comm _ _
  rw [hexp] at hlt
  rw [hcomm] at hle
  have hub : n ≤ d * Q := by omega
  have hlb : d * Q < n + d := by omega
  have hceil : ⌈(n : ℚ) / (d : ℚ)⌉ = (Q : ℤ) := by
    rw [Int.ceil_eq_iff]
    constructor
    · rw [lt_div_iff₀ hdq]
      have hcast : ((d : ℚ)) * (Q : ℚ) < (n : ℚ) + d := by
        exact_mod_cast hlb
      push_cast
      nlinarith
    · rw [div_le_iff₀ hdq]
      have hcast : (n : ℚ) ≤ ((d : ℚ)) * (Q : ℚ) := by
        exact_mod_cast hub
      push_cast
      nlinarith
  rw [hceil, Int.toNat_natCast]

/-- Closed form of the rank ordinals `ceil(q * N)` for
`q ∈ {0, 1/4, 1/2, 3/4}` in terms of natural division. -/
theorem rankOrdinals_closed_form (N : ℕ) :
    rankOrdinals N = [0, (N + 3) / 4, (N + 1) / 2, (3 * N + 3) / 4] := by
  have h0 : ((0 : ℚ) * (N : ℚ)) = 0 := zero_mul _
  have h4 : ((1 : ℚ) / 4) * (N : ℚ) = ((N : ℕ) : ℚ) / ((4 : ℕ) : ℚ) := by
    push_cast
    ring
  have h2 : ((1 : ℚ) / 2) * (N : ℚ) = ((N : ℕ) : ℚ) / ((2 : ℕ) : ℚ) := by
    push_cast
    ring
  have h34 : ((3 : ℚ) / 4) * (N : ℚ)
      = ((3 * N : ℕ) : ℚ) / ((4 : ℕ) : ℚ) := by
    push_cast
    ring
  have e4 : N + 4 - 1 = N + 3 := by omega
  have e2 : N + 2 - 1 = N + 1 := by omega
  have e34 : 3 * N + 4 - 1 = 3 * N + 3 := by omega
  simp only [rankOrdinals, List.map_cons, List.map_nil, h0, h4, h2, h34,
    ceil_natCast_div_natCast_toNat N 4 (by norm_num),
    ceil_natCast_div_natCast_toNat N 2 (by norm_num),
    ceil_natCast_div_natCast_toNat (3 * N) 4 (by norm_num),
    Int.ceil_zero, Int.toNat_zero, e4, e2, e34]

/-- C3 counterexample: for a raster with eligible population `{1, 2}`
(`N = 2`), the rank ordinals are `[0, 1, 1, 2]`; the out-of-core loop
records `[1, 2]` (the duplicated ordinal 1 and the out-of-range ordinal 2
are silently dropped, because the running counter has already advanced),
while picking the values of the sorted in-memory population at those same
rank positions gives `[1, 2, 2]`.  The two procedures disagree, so the
claimed equivalence does not hold for every raster. -/
theorem c3_tiled_percentiles_counterexample :
    tiledBreakpoints 7 [[1, 2]] ≠ inMemoryBreakpoints 7 [[1, 2]] := by
  have hN : nElements 7 [[1, 2]] = 2 := by decide
  have hords : rankOrdinals 2 = [0, 1, 1, 2] := by
    rw [rankOrdinals_closed_form]
  have ht : tiledBreakpoints 7 [[1, 2]] = [1, 2] := by
    simp only [tiledBreakpoints, hN, hords]
    decide
  have hpop : (eligiblePopulation 7 [[1, 2]]).length = 2 := by decide
  have hm : inMemoryBreakpoints 7 [[1, 2]] = [1, 2, 2] := by
    simp only [inMemoryBreakpoints, hpop, hords]
    decide
  rw [ht, hm]
  decide

/-- C3 amended: whenever the eligible population holds at least 4 pixels,
the rank ordinals `ceil(q·N)` for `q ∈ {0, 1/4, 1/2, 3/4}` are strictly
increasing and in range, and the breakpoints computed by the tiled
spill/merge algorithm equal those obtained by sorting the entire eligible
population in memory and picking the values at those rank positions; in
particular rank 0 yields the smallest eligible value.  (For `N ≤ 3` the
ordinals repeat or run out of range and the two procedures can disagree,
as the counterexample shows.) -/
theorem c3_tiled_percentiles_amended (rasterNodata : ℚ)
    (blocks : List (List ℚ))
    (h4 : 4 ≤ nElements rasterNodata blocks) :
    tiledBreakpoints rasterNodata blocks
      = inMemoryBreakpoints rasterNodata blocks ∧
    ∃ b, (tiledBreakpoints rasterNodata blocks).head? = some b ∧
      ∀ x ∈ eligiblePopulation rasterNodata blocks, b ≤ x := by
  have hNlen : nElements rasterNodata blocks
      = (eligiblePopulation rasterNodata blocks).length :=
    nElements_eq_population_length _ _
  have hSlen : (List.insertionSort (· ≤ ·)
        (eligiblePopulation rasterNodata blocks)).length
      = (eligiblePopulation rasterNodata blocks).length :=
    List.length_insertionSort _ _
  have hmerge : mergeAll (tileRuns rasterNodata blocks)
      = List.insertionSort (· ≤ ·)
          (eligiblePopulation rasterNodata blocks) := by
    rw [mergeAll_eq_insertionSort _ (tileRuns_sorted _ _)]
    exact List.eq_of_perm_of_sorted
      ((List.perm_insertionSort _ _).trans
        ((tileRuns_flatten_perm _ _).trans
          (List.perm_insertionSort _ _).symm))
      (List.sorted_insertionSort _ _) (List.sorted_insertionSort _ _)
  have hords := rankOrdinals_closed_form (nElements rasterNodata blocks)
  have hsorted : List.Sorted (· < ·)
      (rankOrdinals (nElements rasterNodata blocks)) := by
    rw [hords]
    simp only [List.sorted_cons, List.mem_cons, List.mem_singleton,
      List.not_mem_nil, List.sorted_nil, and_true, forall_eq_or_imp,
      forall_eq, List.not_mem_nil, IsEmpty.forall_iff, imp_true_iff]
    omega
  have hbound : ∀ o ∈ rankOrdinals (nElements rasterNodata blocks),
      o < nElements rasterNodata blocks := by
    rw [hords]
    intro o ho
    simp only [List.mem_cons, List.mem_singleton, List.not_mem_nil,
      or_false] at ho
    rcases ho with rfl | rfl | rfl | rfl <;> omega
  have htiled : tiledBreakpoints rasterNodata blocks
      = (rankOrdinals (nElements rasterNodata blocks)).map
          (fun o => (List.insertionSort (· ≤ ·)
            (eligiblePopulation rasterNodata blocks)).getD o 0) := by
    simp only [tiledBreakpoints]
    rw [hmerge]
    exact collectPercentiles_eq_map_getD _ _ hsorted
      (fun o ho => by rw [hSlen, ← hNlen]; exact hbound o ho)
  have hmem : inMemoryBreakpoints rasterNodata blocks
      = (rankOrdinals (nElements rasterNodata blocks)).map
          (fun o => (List.insertionSort (· ≤ ·)
            (eligiblePopulation rasterNodata blocks)).getD o 0) := by
    simp only [inMemoryBreakpoints]
    rw [← hNlen]
    exact filterMap_getElem_eq_map_getD _ _
      (fun o ho => by rw [hSlen, ← hNlen]; exact hbound o ho)
  refine ⟨htiled.trans hmem.symm, ?_⟩
  obtain ⟨s0, Stl, hScons⟩ : ∃ a l, List.insertionSort (· ≤ ·)
      (eligiblePopulation rasterNodata blocks) = a :: l := by
    cases hS : List.insertionSort (· ≤ ·)
        (eligiblePopulation rasterNodata blocks) with
    | nil =>
      rw [hS] at hSlen
      simp only [List.length_nil] at hSlen
      omega
    | cons a l => exact ⟨a, l, rfl⟩
  refine ⟨s0, ?_, ?_⟩
  · rw [htiled, hords]
    simp [hScons]
  · intro x hx
    have hxS : x ∈ List.insertionSort (· ≤ ·)
        (eligiblePopulation rasterNodata blocks) :=
      (List.perm_insertionSort _ _).mem_iff.mpr hx
    have hsS := List.sorted_insertionSort (· ≤ ·)
      (eligiblePopulation rasterNodata blocks)
    rw [hScons] at hxS hsS
    rcases List.mem_cons.mp hxS with rfl | hxtl
    · exact le_refl _
    · exact (List.sorted_cons.mp hsS).1 x hxtl

/-- Witness for C3 amended: nodata 7 and two tiles `[5, 1]` and `[3, 2]`
give an eligible population of 4 pixels; the tiled breakpoints equal the
in-memory ones and start at the smallest eligible value. -/
theorem c3_tiled_percentiles_amended_witness :
    4 ≤ nElements 7 [[5, 1], [3, 2]] ∧
    (tiledBreakpoints 7 [[5, 1], [3, 2]]
        = inMemoryBreakpoints 7 [[5, 1], [3, 2]] ∧
      ∃ b, (tiledBreakpoints 7 [[5, 1], [3, 2]]).head? = some b ∧
        ∀ x ∈ eligiblePopulation 7 [[5, 1], [3, 2]], b ≤ x) :=
  ⟨by decide, c3_tiled_percentiles_amended 7 [[5, 1], [3, 2]] (by decide)⟩

end ScenicQuality
